import Mathlib

/-!
Verification development for the fuzzy report-matching core of the
0g-bug-tracker server (`src/server.js`).

Shallow-embedding conventions:
* JavaScript strings are modelled as Lean `String`/`List Char`; the claims
  exercise ASCII data, where `toLowerCase` agrees with `Char.toLower` and
  Unicode NFKD normalization is the identity, so NFKD is modelled as the
  identity map.
* JavaScript numbers are modelled as exact rationals (`ℚ`); the thresholds
  `0.6` and `0.45` become `3/5` and `9/20`.
* The lazily-populated module-level caches (`reportsCache`,
  `reportDocsIndex`) are modelled by explicit state passing; filesystem
  reads become explicit input parameters (`Option` for a possibly missing
  file/directory).
-/

set_option maxHeartbeats 1000000
set_option maxRecDepth 100000

/-! ## Text normalizer (`normalizeText`, server.js lines 83-89) -/

/-- Characters kept by `normalizeText`'s `replace(/[^a-z0-9]/g, '')`:
ASCII lowercase letters and digits. -/
def isKeptChar (c : Char) : Bool :=
  (decide ('a' ≤ c) && decide (c ≤ 'z')) || (decide ('0' ≤ c) && decide (c ≤ '9'))

/-- `normalizeText` (server.js 83-89): lowercase, NFKD (identity on the ASCII
fragment modelled here), then strip every character outside `[a-z0-9]`.
The JS `if (!value) return ''` guard is subsumed: filtering `""` yields `""`. -/
def normalizeText (s : String) : String :=
  ⟨(s.data.map Char.toLower).filter isKeptChar⟩

/-! ## Edit-distance scorer (`levenshteinDistance`, server.js lines 91-110) -/

/-- Substitution cost `a[i] === b[j] ? 0 : 1`. -/
def levCost (x y : Char) : Nat := if x = y then 0 else 1

/-- Inner loop of the DP (server.js 99-104): walk the remaining characters of
`b` together with the matching suffix of the previous row, carrying the last
entry pushed onto the current row (`currentRow[j]`).  Each new entry is
`Math.min(insertCost, deleteCost, replaceCost)`. -/
def levNextRow (c : Char) : List Char → List Nat → Nat → List Nat
  | bj :: bs, pj :: pjs, left =>
      let entry := min (left + 1) (min (pjs.headD 0 + 1) (pj + levCost c bj))
      entry :: levNextRow c bs pjs entry
  | _, _, _ => []

/-- Outer loop of the DP (server.js 97-108): process each character of `a`,
replacing the previous row by the freshly computed current row, whose first
entry is `i + 1`. -/
def levLoop : List Char → Nat → List Char → List Nat → List Nat
  | [], _, _, prev => prev
  | ai :: rest, i, b, prev =>
      levLoop rest (i + 1) b ((i + 1) :: levNextRow ai b prev (i + 1))

/-- `levenshteinDistance` (server.js 91-110): early exits for identical and
empty inputs, then the single-row dynamic-programming sweep; the result is
`previousRow[b.length]`. -/
def levenshteinDistance (a b : String) : Nat :=
  if a = b then 0
  else if a.length = 0 then b.length
  else if b.length = 0 then a.length
  else (levLoop a.data 0 b.data (List.range (b.data.length + 1))).getD b.data.length 0

/-- The classic recursive reference definition of Levenshtein distance:
insertions, deletions and substitutions each cost 1. -/
def levRef : List Char → List Char → Nat
  | [], b => b.length
  | a, [] => a.length
  | x :: xs, y :: ys =>
      min (levRef xs (y :: ys) + 1)
        (min (levRef (x :: xs) ys + 1) (levRef xs ys + levCost x y))
termination_by a b => (a.length, b.length)

theorem levRef_nil_left (b : List Char) : levRef [] b = b.length := by
  cases b <;> simp [levRef]

theorem levRef_nil_right (a : List Char) : levRef a [] = a.length := by
  cases a <;> simp [levRef]

theorem levRef_cons_cons (x y : Char) (xs ys : List Char) :
    levRef (x :: xs) (y :: ys) =
      min (levRef xs (y :: ys) + 1)
        (min (levRef (x :: xs) ys + 1) (levRef xs ys + levCost x y)) := by
  simp [levRef]

theorem levRef_self (l : List Char) : levRef l l = 0 := by
  induction l with
  | nil => simp [levRef]
  | cons x xs ih =>
      rw [levRef_cons_cons, ih]
      simp [levCost]

/-- Commutativity of the reference distance, by strong induction on the total
length. -/
theorem levRef_comm_aux (n : Nat) : ∀ a b : List Char, a.length + b.length ≤ n →
    levRef a b = levRef b a := by
  induction n with
  | zero =>
      intro a b h
      have ha : a = [] := by cases a <;> simp_all
      have hb : b = [] := by cases b <;> simp_all
      subst ha; subst hb; rfl
  | succ n ih =>
      intro a b h
      match a, b with
      | [], b => rw [levRef_nil_left, levRef_nil_right]
      | a, [] => rw [levRef_nil_left, levRef_nil_right]
      | x :: xs, y :: ys =>
          rw [levRef_cons_cons, levRef_cons_cons]
          have h1 : levRef xs (y :: ys) = levRef (y :: ys) xs := by
            apply ih; simp at h ⊢; omega
          have h2 : levRef (x :: xs) ys = levRef ys (x :: xs) := by
            apply ih; simp at h ⊢; omega
          have h3 : levRef xs ys = levRef ys xs := by
            apply ih; simp at h ⊢; omega
          have hc : levCost x y = levCost y x := by
            simp [levCost, eq_comm]
          rw [h1, h2, h3, hc]
          omega

theorem levRef_comm (a b : List Char) : levRef a b = levRef b a :=
  levRef_comm_aux (a.length + b.length) a b le_rfl

/-- Addition distributes over `min` on `Nat`. -/
theorem min_add_right_nat (a b c : Nat) : min a b + c = min (a + c) (b + c) := by
  omega

/-- The reference distance also satisfies the "append" recurrence that the
dynamic program uses (extend both strings on the right).  Proof by strong
induction on the total length; each case reduces to an equality of two
min-trees over the same atoms. -/
theorem levRef_append_aux (x y : Char) (n : Nat) :
    ∀ p q : List Char, p.length + q.length ≤ n →
    levRef (p ++ [x]) (q ++ [y]) =
      min (levRef (p ++ [x]) q + 1)
        (min (levRef p (q ++ [y]) + 1) (levRef p q + levCost x y)) := by
  induction n with
  | zero =>
      intro p q h
      have hp : p = [] := by cases p <;> simp_all
      have hq : q = [] := by cases q <;> simp_all
      subst hp; subst hq
      simp only [List.nil_append]
      simp only [levRef_cons_cons, levRef_nil_left, levRef_nil_right]
      simp only [List.length_cons, List.length_nil, List.length_singleton]
  | succ n ih =>
      intro p q h
      match p, q with
      | [], [] =>
          simp only [List.nil_append]
          simp only [levRef_cons_cons, levRef_nil_left, levRef_nil_right]
          simp only [List.length_cons, List.length_nil, List.length_singleton]
      | [], y' :: q' =>
          have h1 := ih [] q' (by simp at h ⊢; omega)
          simp only [List.nil_append, List.cons_append] at h1 ⊢
          simp only [levRef_cons_cons]
          rw [h1]
          simp only [levRef_nil_left]
          simp only [List.length_cons, List.length_append, List.length_singleton,
            List.length_nil]
          omega
      | x' :: p', [] =>
          have h1 := ih p' [] (by simp at h ⊢; omega)
          simp only [List.nil_append, List.cons_append] at h1 ⊢
          simp only [levRef_cons_cons]
          rw [h1]
          simp only [levRef_nil_right]
          simp only [List.length_cons, List.length_append, List.length_singleton,
            List.length_nil]
          omega
      | x' :: p', y' :: q' =>
          have h1 := ih p' (y' :: q') (by simp at h ⊢; omega)
          have h2 := ih (x' :: p') q' (by simp at h ⊢; omega)
          have h3 := ih p' q' (by simp at h ⊢; omega)
          simp only [List.cons_append] at h1 h2 h3 ⊢
          simp only [levRef_cons_cons]
          rw [h1, h2, h3]
          simp only [min_add_right_nat]
          apply Nat.le_antisymm
          · simp only [le_min_iff, min_le_iff]
            repeat' apply And.intro
            all_goals omega
          · simp only [le_min_iff, min_le_iff]
            repeat' apply And.intro
            all_goals omega

theorem levRef_append (p q : List Char) (x y : Char) :
    levRef (p ++ [x]) (q ++ [y]) =
      min (levRef (p ++ [x]) q + 1)
        (min (levRef p (q ++ [y]) + 1) (levRef p q + levCost x y)) :=
  levRef_append_aux x y (p.length + q.length) p q le_rfl

/-! ## Correctness of the dynamic program -/

/-- The row of reference distances from `p` to the successive extensions of the
prefix `q` by characters of `bs`: `[levRef p q, levRef p (q ++ [b₀]), ...]`.
This is the invariant carried by `previousRow` in the JS implementation. -/
def distFrom (p : List Char) : List Char → List Char → List Nat
  | q, [] => [levRef p q]
  | q, bj :: rest => levRef p q :: distFrom p (q ++ [bj]) rest

theorem distFrom_headD (p q bs : List Char) :
    (distFrom p q bs).headD 0 = levRef p q := by
  cases bs <;> rfl

/-- The inner DP loop maps the row for `p` to the row for `p ++ [c]`. -/
theorem levNextRow_spec (c : Char) (p : List Char) :
    ∀ (bs q : List Char),
    levRef (p ++ [c]) q ::
        levNextRow c bs (distFrom p q bs) (levRef (p ++ [c]) q) =
      distFrom (p ++ [c]) q bs := by
  intro bs
  induction bs with
  | nil => intro q; simp [distFrom, levNextRow]
  | cons bj rest ih =>
      intro q
      rw [distFrom]
      rw [levNextRow]
      simp only [distFrom_headD]
      have hmin : min (levRef (p ++ [c]) q + 1)
          (min (levRef p (q ++ [bj]) + 1) (levRef p q + levCost c bj)) =
          levRef (p ++ [c]) (q ++ [bj]) := (levRef_append p q c bj).symm
      rw [hmin]
      rw [distFrom]
      rw [← ih (q ++ [bj])]

/-- The outer DP loop turns the row for the processed prefix `p` into the row
for `p ++ rest`. -/
theorem levLoop_spec (b : List Char) :
    ∀ (rest p : List Char),
    levLoop rest p.length b (distFrom p [] b) = distFrom (p ++ rest) [] b := by
  intro rest
  induction rest with
  | nil => intro p; simp [levLoop]
  | cons c rest ih =>
      intro p
      rw [levLoop]
      have hlen : levRef (p ++ [c]) [] = p.length + 1 := by
        rw [levRef_nil_right]; simp
      have hrow : (p.length + 1) :: levNextRow c b (distFrom p [] b) (p.length + 1) =
          distFrom (p ++ [c]) [] b := by
        rw [← hlen]
        exact levNextRow_spec c p b []
      rw [hrow]
      have h2 := ih (p ++ [c])
      simp only [List.length_append, List.length_singleton] at h2
      rw [h2]
      simp

theorem distFrom_nil_eq_range (bs : List Char) :
    ∀ q : List Char, distFrom [] q bs = List.range' q.length (bs.length + 1) := by
  induction bs with
  | nil =>
      intro q
      simp [distFrom, List.range', levRef_nil_left]
  | cons bj rest ih =>
      intro q
      rw [distFrom, ih (q ++ [bj])]
      simp [List.range', levRef_nil_left]

theorem distFrom_getD (p : List Char) :
    ∀ (bs q : List Char), (distFrom p q bs).getD bs.length 0 = levRef p (q ++ bs) := by
  intro bs
  induction bs with
  | nil => intro q; simp [distFrom]
  | cons bj rest ih =>
      intro q
      rw [distFrom]
      simp only [List.length_cons, List.getD_cons_succ]
      rw [ih (q ++ [bj])]
      simp

/-- The JS single-row dynamic program computes the classic reference
Levenshtein distance. -/
theorem levenshteinDistance_eq_levRef (a b : String) :
    levenshteinDistance a b = levRef a.data b.data := by
  unfold levenshteinDistance
  by_cases hab : a = b
  · rw [if_pos hab, hab, levRef_self]
  · rw [if_neg hab]
    by_cases ha : a.length = 0
    · rw [if_pos ha]
      have ha' : a.data = [] := by
        have h : a.data.length = 0 := ha
        exact List.length_eq_zero.mp h
      rw [ha', levRef_nil_left]
      rfl
    · rw [if_neg ha]
      by_cases hb : b.length = 0
      · rw [if_pos hb]
        have hb' : b.data = [] := by
          have h : b.data.length = 0 := hb
          exact List.length_eq_zero.mp h
        rw [hb', levRef_nil_right]
        rfl
      · rw [if_neg hb]
        have h0 : List.range (b.data.length + 1) = distFrom [] [] b.data := by
          rw [distFrom_nil_eq_range b.data []]
          simp [List.range_eq_range']
        rw [h0]
        have h1 := levLoop_spec b.data a.data []
        simp only [List.length_nil, List.nil_append] at h1
        rw [h1]
        have h2 := distFrom_getD a.data b.data []
        simp only [List.nil_append] at h2
        exact h2

/-- Levenshtein distance is bounded by the length of the longer input
(substitute along the diagonal). -/
theorem levRef_le_max (a : List Char) :
    ∀ b : List Char, levRef a b ≤ max a.length b.length := by
  induction a with
  | nil => intro b; rw [levRef_nil_left]; omega
  | cons x xs ih =>
      intro b
      cases b with
      | nil => rw [levRef_nil_right]; omega
      | cons y ys =>
          rw [levRef_cons_cons]
          have h1 := ih ys
          have hc : levCost x y ≤ 1 := by
            unfold levCost; split <;> omega
          simp only [List.length_cons]
          omega

/-! ## Similarity ratio (`1 - distance / maxLength`, server.js 199-201, 263-265) -/

/-- The similarity ratio used by both resolvers:
`1 - distance(a, b) / Math.max(a.length, b.length, 1)`, over exact rationals. -/
def similarityQ (a b : String) : ℚ :=
  1 - (levenshteinDistance a b : ℚ) / max (a.length : ℚ) (max (b.length : ℚ) 1)

/-- Substring containment test, modelling JS `big.includes(small)`. -/
def containsSubstr (big small : String) : Bool :=
  decide (small.data <:+: big.data)

/-! ## Slugifier (`createSlug`, server.js 112-118) -/

/-- Run-collapsing worker: the flag records whether the previous character
already belonged to a run of non-alphanumerics (so the run emits only one
hyphen). -/
def collapseToDashAux : Bool → List Char → List Char
  | _, [] => []
  | inRun, c :: cs =>
      if isKeptChar c then c :: collapseToDashAux false cs
      else if inRun then collapseToDashAux true cs
      else '-' :: collapseToDashAux true cs

/-- One maximal run of characters outside `[a-z0-9]` collapses to a single
hyphen (the `replace(/[^a-z0-9]+/g, '-')` step). -/
def collapseToDash (l : List Char) : List Char := collapseToDashAux false l

/-- The `replace(/^-+|-+$/g, '')` step: trim leading and trailing hyphens. -/
def trimDashes (l : List Char) : List Char :=
  ((l.dropWhile (fun c => c == '-')).reverse.dropWhile (fun c => c == '-')).reverse

/-- `createSlug` (server.js 112-118): lowercase, NFKD (identity on the ASCII
fragment modelled), collapse runs of non-alphanumerics to single hyphens and
trim hyphens at both ends. -/
def createSlug (s : String) : String :=
  ⟨trimDashes (collapseToDash (s.data.map Char.toLower))⟩

/-! ## Report records -/

/-- A report record.  JS report objects are open maps; the fields the matching
core reads are modelled explicitly (`none` = absent) and all remaining
key/value pairs are kept in `extra`, preserving the spread/rest semantics of
`{ ...base }` and `const { explanationPath, ...publicFields }`. -/
structure Report where
  slug : Option String
  title : Option String
  github_repo : Option String
  url : Option String
  explanationPath : Option String
  hasExplanation : Bool
  extra : List (String × String)
deriving DecidableEq, Repr

/-- A report record with no fields set, as produced for a non-object raw
entry (`base = {}`). -/
def emptyReport : Report := ⟨none, none, none, none, none, false, []⟩

/-- JS truthiness for an optional string field: present and non-empty. -/
def truthy : Option String → Bool
  | none => false
  | some s => decide (s ≠ "")

/-- The first truthy value of a `||` chain of optional string fields. -/
def firstTruthy : List (Option String) → Option String
  | [] => none
  | o :: os => if truthy o then o else firstTruthy os

/-! ## Candidate generator (`buildReportDocCandidates`, server.js 147-177) -/

/-- JS `Set.add`: keep insertion order, ignore duplicates. -/
def addCand (l : List String) (s : String) : List String :=
  if s ∈ l then l else l ++ [s]

/-- `String.split` on a single separator character (JS `str.split('/')`),
implemented structurally so that it evaluates inside the kernel. -/
def splitOnChar (sep : Char) : List Char → List (List Char)
  | [] => [[]]
  | c :: cs =>
      let r := splitOnChar sep cs
      if c = sep then [] :: r
      else (c :: r.headD []) :: r.tail

/-- `github_repo.split('/').filter(Boolean)`. -/
def repoSegments (g : String) : List String :=
  ((splitOnChar '/' g.data).map (fun l => (⟨l⟩ : String))).filter
    (fun s => s ≠ "")

/-- Pathname of the platform URL parser (`new URL(u).pathname`), modelled for
the hierarchical `scheme://host/path` shape used by report links: a non-empty
scheme before `"://"`, a non-empty host, and the pathname from the first
slash after the host (`"/"` when absent).  Any other shape is treated as a
parse failure (`none`), matching the `catch` around `new URL`. -/
def parseURLPathname (u : String) : Option String :=
  match u.data.dropWhile (fun c => c != ':') with
  | ':' :: '/' :: '/' :: hostPath =>
      if u.data.takeWhile (fun c => c != ':') = [] then none
      else if hostPath.takeWhile (fun c => c != '/') = [] then none
      else if hostPath.dropWhile (fun c => c != '/') = [] then some "/"
      else some ⟨hostPath.dropWhile (fun c => c != '/')⟩
  | _ => none

/-- Node's `path.basename`: drop trailing slashes, then take the part after
the last remaining slash. -/
def pathBasename (p : String) : String :=
  ⟨((p.data.reverse.dropWhile (fun c => c == '/')).takeWhile
    (fun c => c != '/')).reverse⟩

/-- `fileName.replace(/\.[^.]+$/, '')`: remove a final dot followed by one or
more non-dot characters; otherwise leave the name unchanged. -/
def stripExt (f : String) : String :=
  let r := f.data.reverse
  let k := (r.takeWhile (fun c => c != '.')).length
  if 1 ≤ k ∧ k < r.length then ⟨f.data.take (f.data.length - (k + 1))⟩ else f

/-- Candidates contributed by the slug argument (`if (slug) candidates.add(slug)`). -/
def candSlug (slug : String) : List String :=
  if slug ≠ "" then addCand [] slug else []

/-- Candidates contributed by `title`. -/
def candTitle (r : Report) (c : List String) : List String :=
  match r.title with
  | some t => if t ≠ "" then addCand c t else c
  | none => c

/-- Candidates contributed by `github_repo`: the verbatim string plus the last
non-empty `/`-segment. -/
def candRepo (r : Report) (c : List String) : List String :=
  match r.github_repo with
  | some g =>
      if g ≠ "" then
        let c1 := addCand c g
        match (repoSegments g).getLast? with
        | some s => addCand c1 s
        | none => c1
      else c
  | none => c

/-- Candidates contributed by `url`: the verbatim string plus, when the URL
parses, the final pathname segment and that segment without its extension.
A malformed URL contributes only the verbatim string (the `catch` is empty). -/
def candUrl (r : Report) (c : List String) : List String :=
  match r.url with
  | some u =>
      if u ≠ "" then
        match parseURLPathname u with
        | some pn =>
            if pn ≠ "" then
              if pathBasename pn ≠ "" then
                addCand (addCand (addCand c u) (pathBasename pn))
                  (stripExt (pathBasename pn))
              else addCand c u
            else addCand c u
        | none => addCand c u
      else c
  | none => c

/-- `buildReportDocCandidates` (server.js 147-177): collect slug, title,
repository and URL variants into an insertion-ordered set, then
`Array.from(candidates).filter(Boolean)`. -/
def buildReportDocCandidates (r : Report) (slug : String) : List String :=
  (candUrl r (candRepo r (candTitle r (candSlug slug)))).filter (fun s => s ≠ "")

/-! ## Document index (`ensureReportDocsIndex`, server.js 120-145) -/

/-- Insert-or-overwrite for the JS object used as a map: an existing key keeps
its position but takes the new value ("last-scanned entry wins"); a new key is
appended (`Object.entries` iterates string keys in insertion order). -/
def upsert (m : List (String × String)) (k v : String) : List (String × String) :=
  if m.any (fun e => e.1 == k) then
    m.map (fun e => if e.1 == k then (k, v) else e)
  else m ++ [(k, v)]

/-- Directory of the markdown explanation documents.  `path.join(__dirname,
'data', 'reports')` is modelled relative to the server directory. -/
def reportsDirPath : String := "data/reports"

/-- Lowercasing a whole string (JS `toLowerCase` on the ASCII fragment
modelled). -/
def toLowerStr (s : String) : String := ⟨s.data.map Char.toLower⟩

/-- Index construction from a directory listing (server.js 130-138): keep
case-insensitive `.md` entries, strip the extension (`entry.slice(0, -3)`),
normalize the base name; empty keys are skipped. -/
def buildDocsIndex (entries : List String) : List (String × String) :=
  entries.foldl
    (fun m entry =>
      if (".md".data).isSuffixOf (toLowerStr entry).data then
        let baseName := entry.dropRight 3
        let normalized := normalizeText baseName
        if normalized ≠ "" then upsert m normalized (reportsDirPath ++ "/" ++ entry)
        else m
      else m)
    []

/-- `ensureReportDocsIndex` (server.js 120-145) as a state transformer: no-op
when the index is already built (`reportDocsIndex !== null`); a missing
directory (`ENOENT`, modelled by `none`) degrades to the empty index. -/
def ensureReportDocsIndex (dirList : Option (List String))
    (st : Option (List (String × String))) : Option (List (String × String)) :=
  match st with
  | some idx => some idx
  | none =>
      match dirList with
      | none => some []
      | some entries => some (buildDocsIndex entries)

/-! ## Path resolver (`findDocPathForCandidates`, server.js 179-214) -/

/-- The exact-match probe `normalized && reportDocsIndex[normalized]`: the
key must be truthy and the stored value must be truthy. -/
def lookupTruthy (entries : List (String × String)) (n : String) : Option String :=
  if n = "" then none
  else
    match entries.find? (fun e => e.1 == n) with
    | some e => if e.2 ≠ "" then some e.2 else none
    | none => none

/-- One step of the fuzzy scan over index entries (server.js 198-206): update
the running best on strictly greater similarity. -/
def scanEntry (n : String) (acc : Option String × ℚ) (e : String × String) :
    Option String × ℚ :=
  if similarityQ e.1 n > acc.2 then (some e.2, similarityQ e.1 n) else acc

/-- The candidate loop of `findDocPathForCandidates`: an exact hit returns its
path immediately; otherwise each non-empty normalized candidate is scored
against every index entry, and the final answer applies the `>= 0.6`
threshold to the best fuzzy pair. -/
def docLoop (entries : List (String × String)) :
    List String → Option String → ℚ → Option String
  | [], bestPath, bestSim =>
      match bestPath with
      | some p => if p ≠ "" ∧ bestSim ≥ 3/5 then some p else none
      | none => none
  | c :: cs, bestPath, bestSim =>
      let n := normalizeText c
      match lookupTruthy entries n with
      | some p => some p
      | none =>
          if n = "" then docLoop entries cs bestPath bestSim
          else
            let acc := entries.foldl (scanEntry n) (bestPath, bestSim)
            docLoop entries cs acc.1 acc.2

/-- `findDocPathForCandidates` (server.js 179-214); a `null` index returns
`null`. -/
def findDocPathForCandidates (idx : Option (List (String × String)))
    (cands : List String) : Option String :=
  match idx with
  | none => none
  | some entries => docLoop entries cands none 0

/-- The fuzzy accumulator over all candidates, starting from a given
accumulator (used to state properties of the scan without the early exact
return). -/
def docFoldFrom (entries : List (String × String)) (cands : List String)
    (acc : Option String × ℚ) : Option String × ℚ :=
  cands.foldl
    (fun a c =>
      let n := normalizeText c
      if n = "" then a else entries.foldl (scanEntry n) a)
    acc

/-- The best fuzzy candidate/document pair of the whole scan. -/
def docBest (entries : List (String × String)) (cands : List String) :
    Option String × ℚ :=
  docFoldFrom entries cands (none, 0)

/-- The candidate list computed by `resolveExplanationPath` (server.js
218-220): slugify the `slug || title || github_repo || url` chain (empty when
the whole chain is falsy) and build the document candidates. -/
def resolveCandidates (r : Report) : List String :=
  let slugSource := firstTruthy [r.slug, r.title, r.github_repo, r.url]
  let slug := match slugSource with
    | some s => createSlug s
    | none => ""
  buildReportDocCandidates r slug

/-- `resolveExplanationPath` (server.js 216-222): ensure the index, derive the
slug and candidates, and resolve. -/
def resolveExplanationPath (dirList : Option (List String))
    (idxSt : Option (List (String × String))) (r : Report) : Option String :=
  findDocPathForCandidates (ensureReportDocsIndex dirList idxSt)
    (resolveCandidates r)

/-! ## Sanitizer (`sanitizeReport`, server.js 224-231) -/

/-- The shape returned by `sanitizeReport`: every `Report` field except
`explanationPath` (the rest-spread `const { explanationPath, ...publicFields }`
drops exactly that key). -/
structure SanitizedReport where
  slug : Option String
  title : Option String
  github_repo : Option String
  url : Option String
  hasExplanation : Bool
  extra : List (String × String)
deriving DecidableEq, Repr

/-- `sanitizeReport` (server.js 224-231): `null`/`undefined` maps to `null`;
otherwise all public fields are copied unchanged. -/
def sanitizeReport : Option Report → Option SanitizedReport
  | none => none
  | some r => some ⟨r.slug, r.title, r.github_repo, r.url, r.hasExplanation, r.extra⟩

/-! ## Query matcher (`findBestReportMatch`, server.js 233-278) -/

/-- The normalized comparison strings of a report:
`[title, github_repo, url].filter(Boolean).map(normalizeText)`. -/
def reportMatchCandidates (r : Report) : List String :=
  (([r.title, r.github_repo, r.url].filterMap id).filter
    (fun s => s ≠ "")).map normalizeText

/-- Score of one comparison string (server.js 254-265): substring containment
in either direction scores `len(query)/max(len(candidate), 1)`, otherwise the
similarity ratio. -/
def matchScore (nq cand : String) : ℚ :=
  if containsSubstr cand nq || containsSubstr nq cand then
    (nq.length : ℚ) / max (cand.length : ℚ) 1
  else similarityQ cand nq

/-- One accumulator step of the query matcher: skip empty normalized
candidates, otherwise update the best report/score on strictly greater score
(`none` models the `bestScore = -Infinity` start: any score beats it). -/
def matchStep (nq : String) (r : Report) (acc : Option (Report × ℚ))
    (cand : String) : Option (Report × ℚ) :=
  if cand = "" then acc
  else
    let score := matchScore nq cand
    match acc with
    | none => some (r, score)
    | some b => if score > b.2 then some (r, score) else acc

/-- The best (report, score) pair over the whole cache, before thresholding. -/
def matchBest (cache : List Report) (nq : String) : Option (Report × ℚ) :=
  cache.foldl (fun acc r => (reportMatchCandidates r).foldl (matchStep nq r) acc) none

/-- `findBestReportMatch` (server.js 233-278): empty normalized query returns
`null`; the final best is returned only when its score reaches `0.45`. -/
def findBestReportMatch (cache : List Report) (query : String) :
    Option (Report × ℚ) :=
  if normalizeText query = "" then none
  else
    match matchBest cache (normalizeText query) with
    | none => none
    | some b => if b.2 < 9/20 then none else some b

/-! ## Report cache (`ensureReportsLoaded`, server.js 43-81) -/

/-- Result of reading and parsing `data/reports.json`:
missing/unreadable file (the `catch` path), parsed but not an array
(warned and treated as empty), or a parsed array whose entries may be
non-objects (`none` entry = non-object, `base = {}`). -/
inductive RecordsSource where
  | missing : RecordsSource
  | notArray : RecordsSource
  | array : List (Option Report) → RecordsSource
deriving DecidableEq

/-- The module-level mutable state relevant to the matching core. -/
structure ServerState where
  reportsCache : List Report
  reportDocsIndex : Option (List (String × String))
deriving DecidableEq

/-- Enrichment of one raw record (server.js 56-68): derive the slug from the
`slug || title || github_repo || url || 'report-<i+1>'` chain, slugify it,
fall back to the placeholder when the slugified form is empty, and attach the
resolved explanation path. -/
def enrichOne (dirList : Option (List String))
    (idxSt : Option (List (String × String))) (i : Nat) (item : Option Report) :
    Report :=
  let base := item.getD emptyReport
  let fallback := "report-" ++ toString (i + 1)
  let slugSource := (firstTruthy [base.slug, base.title, base.github_repo,
    base.url]).getD fallback
  let slugCandidate := createSlug slugSource
  let slug := if slugCandidate = "" then fallback else slugCandidate
  let withSlug := { base with slug := some slug }
  let ep := resolveExplanationPath dirList idxSt withSlug
  { withSlug with explanationPath := ep, hasExplanation := ep.isSome }

/-- Enrichment of the whole array with 0-based positions. -/
def enrichFrom (dirList : Option (List String))
    (idxSt : Option (List (String × String))) :
    Nat → List (Option Report) → List Report
  | _, [] => []
  | i, item :: rest =>
      enrichOne dirList idxSt i item :: enrichFrom dirList idxSt (i + 1) rest

def enrichReports (dirList : Option (List String))
    (idxSt : Option (List (String × String))) (items : List (Option Report)) :
    List Report :=
  enrichFrom dirList idxSt 0 items

/-- `ensureReportsLoaded` (server.js 43-81) as a state transformer.  The
returned `Bool` records whether the records source was read during the call.
A populated cache short-circuits; the `catch` path (missing source) leaves an
empty cache without building the index; a non-array source and an array
source both build the document index first. -/
def ensureReportsLoaded (src : RecordsSource) (dirList : Option (List String))
    (st : ServerState) : ServerState × Bool :=
  if st.reportsCache.length > 0 then (st, false)
  else
    match src with
    | .missing => (⟨[], st.reportDocsIndex⟩, true)
    | .notArray =>
        let idx := ensureReportDocsIndex dirList st.reportDocsIndex
        (⟨[], idx⟩, true)
    | .array items =>
        let idx := ensureReportDocsIndex dirList st.reportDocsIndex
        (⟨enrichReports dirList idx items, idx⟩, true)

/-! ## Supporting lemmas -/

/-- With an empty index the fuzzy scan never sets a best path, so the
candidate loop returns `none`. -/
theorem docLoop_nil_entries : ∀ (cs : List String) (bs : ℚ),
    docLoop [] cs none bs = none := by
  intro cs
  induction cs with
  | nil => intro bs; rfl
  | cons c cs ih =>
      intro bs
      rw [docLoop]
      have hl : lookupTruthy [] (normalizeText c) = none := by
        unfold lookupTruthy
        split <;> rfl
      rw [hl]
      by_cases hn : normalizeText c = ""
      · rw [if_pos hn]
        exact ih bs
      · rw [if_neg hn]
        exact ih bs

/-- `find?` only depends on the pointwise behaviour of the predicate. -/
theorem find?_congr_pred {α : Type} (p q : α → Bool) :
    ∀ l : List α, (∀ a ∈ l, p a = q a) → l.find? p = l.find? q := by
  intro l
  induction l with
  | nil => intro _; rfl
  | cons a l ih =>
      intro h
      rw [List.find?_cons, List.find?_cons, h a (by simp)]
      cases q a
      · exact ih (fun x hx => h x (by simp [hx]))
      · rfl

/-- Under the invariants of a built index (non-empty keys and values), the
exact-match probe succeeds exactly when the normalized candidate is a key. -/
theorem lookupTruthy_isSome_eq_any (entries : List (String × String))
    (hkeys : ∀ e ∈ entries, e.1 ≠ "") (hvals : ∀ e ∈ entries, e.2 ≠ "")
    (n : String) :
    (lookupTruthy entries n).isSome = entries.any (fun e => e.1 == n) := by
  unfold lookupTruthy
  by_cases hn : n = ""
  · rw [if_pos hn]
    subst hn
    rcases ha : entries.any (fun e => e.1 == "") with _ | _
    · rfl
    · exfalso
      rw [List.any_eq_true] at ha
      obtain ⟨e, he, hpe⟩ := ha
      exact hkeys e he (by simpa using hpe)
  · rw [if_neg hn]
    rcases hf : entries.find? (fun e => e.1 == n) with _ | e
    · rw [hf]
      rcases ha : entries.any (fun e => e.1 == n) with _ | _
      · rfl
      · rw [List.any_eq_true] at ha
        obtain ⟨e, he, hpe⟩ := ha
        rw [List.find?_eq_none] at hf
        exact absurd hpe (hf e he)
    · have hmem := List.mem_of_find?_eq_some hf
      have hval := hvals e hmem
      rw [hf]
      show (if e.2 ≠ "" then some e.2 else none).isSome = entries.any fun x => x.1 == n
      rw [if_pos hval]
      simp only [Option.isSome_some]
      have hpe := List.find?_some hf
      symm
      rw [List.any_eq_true]
      exact ⟨e, hmem, hpe⟩

/-- An exact hit on some candidate makes the loop return its stored path,
regardless of the fuzzy accumulator. -/
theorem docLoop_exact (entries : List (String × String)) :
    ∀ (cs : List String) (bp : Option String) (bs : ℚ) (c₀ : String),
    cs.find? (fun c => (lookupTruthy entries (normalizeText c)).isSome) = some c₀ →
    docLoop entries cs bp bs = lookupTruthy entries (normalizeText c₀) := by
  intro cs
  induction cs with
  | nil => intro bp bs c₀ h; simp at h
  | cons c cs ih =>
      intro bp bs c₀ h
      rw [List.find?_cons] at h
      rcases hl : (lookupTruthy entries (normalizeText c)) with _ | p
      · have hns : (lookupTruthy entries (normalizeText c)).isSome = false := by
          rw [hl]; rfl
        rw [hns] at h
        rw [docLoop, hl]
        by_cases hn : normalizeText c = ""
        · rw [if_pos hn]
          exact ih bp bs c₀ h
        · rw [if_neg hn]
          exact ih _ _ c₀ h
      · have hs : (lookupTruthy entries (normalizeText c)).isSome = true := by
          rw [hl]; rfl
        rw [hs] at h
        have hc : c₀ = c := by
          simpa using h.symm
        subst hc
        rw [docLoop, hl]

/-- Without any exact hit, the candidate loop is the fuzzy fold followed by
the `>= 0.6` threshold check. -/
theorem docLoop_no_exact (entries : List (String × String)) :
    ∀ (cs : List String) (bp : Option String) (bs : ℚ),
    (∀ c ∈ cs, lookupTruthy entries (normalizeText c) = none) →
    docLoop entries cs bp bs =
      (match docFoldFrom entries cs (bp, bs) with
       | (some p, s) => if p ≠ "" ∧ s ≥ 3/5 then some p else none
       | (none, _) => none) := by
  intro cs
  induction cs with
  | nil =>
      intro bp bs _
      rcases bp with _ | p <;> rfl
  | cons c cs ih =>
      intro bp bs h
      rw [docLoop, h c (by simp)]
      have htail : ∀ c' ∈ cs, lookupTruthy entries (normalizeText c') = none :=
        fun c' hc' => h c' (by simp [hc'])
      by_cases hn : normalizeText c = ""
      · rw [if_pos hn]
        rw [ih bp bs htail]
        have hfold : docFoldFrom entries (c :: cs) (bp, bs) =
            docFoldFrom entries cs (bp, bs) := by
          unfold docFoldFrom
          rw [List.foldl_cons]
          simp only [hn]
          rfl
        rw [hfold]
      · rw [if_neg hn]
        rw [ih _ _ htail]
        have hfold : docFoldFrom entries (c :: cs) (bp, bs) =
            docFoldFrom entries cs (List.foldl (scanEntry (normalizeText c))
              (bp, bs) entries) := by
          unfold docFoldFrom
          rw [List.foldl_cons]
          simp only [hn]
          rfl
        rw [hfold]

theorem mem_addCand_self (l : List String) (s : String) : s ∈ addCand l s := by
  unfold addCand
  split
  · assumption
  · simp

theorem mem_addCand_of_mem {l : List String} {x : String} (s : String)
    (h : x ∈ l) : x ∈ addCand l s := by
  unfold addCand
  split
  · exact h
  · simp [h]

theorem mem_candTitle_of_mem (r : Report) {c : List String} {x : String}
    (h : x ∈ c) : x ∈ candTitle r c := by
  unfold candTitle
  rcases r.title with _ | t
  · exact h
  · by_cases ht : t = "" <;> simp [ht, mem_addCand_of_mem, h]

theorem mem_candRepo_of_mem (r : Report) {c : List String} {x : String}
    (h : x ∈ c) : x ∈ candRepo r c := by
  unfold candRepo
  rcases r.github_repo with _ | g
  · exact h
  · by_cases hg : g = ""
    · simp [hg, h]
    · simp only [hg, if_neg, ite_not]
      rcases (repoSegments g).getLast? with _ | s <;>
        simp [mem_addCand_of_mem, h, hg]

theorem mem_candUrl_of_mem (r : Report) {c : List String} {x : String}
    (h : x ∈ c) : x ∈ candUrl r c := by
  rcases hr : r.url with _ | u
  · simp only [candUrl, hr]
    exact h
  · simp only [candUrl, hr]
    by_cases hu : u = ""
    · rw [if_neg (not_not_intro hu)]
      exact h
    · rw [if_pos hu]
      rcases hp : parseURLPathname u with _ | pn <;> simp only [hp]
      · exact mem_addCand_of_mem u h
      · by_cases hpn : pn = ""
        · rw [if_neg (not_not_intro hpn)]
          exact mem_addCand_of_mem u h
        · rw [if_pos hpn]
          by_cases hfn : pathBasename pn = ""
          · rw [if_neg (not_not_intro hfn)]
            exact mem_addCand_of_mem u h
          · rw [if_pos hfn]
            exact mem_addCand_of_mem _ (mem_addCand_of_mem _ (mem_addCand_of_mem u h))

/-- Casting the distance: the DP value is bounded by the longer length. -/
theorem levenshteinDistance_le_max (a b : String) :
    levenshteinDistance a b ≤ max a.length b.length := by
  rw [levenshteinDistance_eq_levRef]
  exact levRef_le_max a.data b.data

/-- `ensureReportDocsIndex` is idempotent and always yields a built index. -/
theorem ensureReportDocsIndex_idem (dl : Option (List String))
    (st : Option (List (String × String))) :
    ensureReportDocsIndex dl (ensureReportDocsIndex dl st) =
      ensureReportDocsIndex dl st := by
  unfold ensureReportDocsIndex
  rcases st with _ | idx
  · rcases dl with _ | entries <;> rfl
  · rfl

/-- Indexing into the enriched list. -/
theorem enrichFrom_getElem? (dl : Option (List String))
    (idxSt : Option (List (String × String))) :
    ∀ (items : List (Option Report)) (k i : Nat),
    (enrichFrom dl idxSt k items)[i]? =
      items[i]?.map (fun it => enrichOne dl idxSt (k + i) it) := by
  intro items
  induction items with
  | nil => intro k i; simp [enrichFrom]
  | cons it rest ih =>
      intro k i
      rw [enrichFrom]
      cases i with
      | zero => simp
      | succ j =>
          simp only [List.getElem?_cons_succ]
          rw [ih (k + 1) j]
          have : k + 1 + j = k + (j + 1) := by omega
          rw [this]

/-- A non-empty string append is non-empty. -/
theorem append_ne_empty_left (s t : String) (h : s.data ≠ []) :
    s ++ t ≠ "" := by
  intro he
  have hd : (s ++ t).data = [] := by rw [he]
  rw [String.data_append] at hd
  rcases List.append_eq_nil.mp hd with ⟨h1, _⟩
  exact h h1

/-- A string whose character list is non-empty is not the empty string. -/
theorem string_ne_empty_of_data_ne {s : String} (h : s.data ≠ []) : s ≠ "" := by
  intro he
  apply h
  rw [he]

/-- A non-empty string has a non-empty character list. -/
theorem data_ne_of_string_ne {s : String} (h : s ≠ "") : s.data ≠ [] := by
  intro hd
  apply h
  cases s
  simp at hd
  rw [hd]

/-! ## Claims -/

/-- C1: for every pair of strings, `levenshteinDistance` equals the classic
Levenshtein edit distance given by the standard recursive reference
definition `levRef` (insertions, deletions and substitutions each costing 1);
in particular it is zero on identical strings, symmetric, maps an empty first
argument to the other string's length, and
`levenshteinDistance "" "abc" = 3`. -/
theorem C1_levenshteinDistance_is_reference :
    (∀ a b : String, levenshteinDistance a b = levRef a.data b.data) ∧
    (∀ a : String, levenshteinDistance a a = 0) ∧
    (∀ a b : String, levenshteinDistance a b = levenshteinDistance b a) ∧
    (∀ s : String, levenshteinDistance "" s = s.length) ∧
    levenshteinDistance "" "abc" = 3 := by
  refine ⟨levenshteinDistance_eq_levRef, ?_, ?_, ?_, by decide⟩
  · intro a
    rw [levenshteinDistance_eq_levRef, levRef_self]
  · intro a b
    rw [levenshteinDistance_eq_levRef, levenshteinDistance_eq_levRef,
      levRef_comm]
  · intro s
    rw [levenshteinDistance_eq_levRef]
    have h : ("" : String).data = [] := rfl
    rw [h, levRef_nil_left]
    rfl

/-- C9: `sanitizeReport` returns an object with every field of the record
except `explanationPath`, each unchanged (the result type has no
`explanationPath` field at all, so the search/explain endpoints never expose
the filesystem path), and maps a null report to null. -/
theorem C9_sanitizeReport_drops_only_explanationPath :
    (∀ r : Report, ∃ s : SanitizedReport, sanitizeReport (some r) = some s ∧
      s.slug = r.slug ∧ s.title = r.title ∧ s.github_repo = r.github_repo ∧
      s.url = r.url ∧ s.hasExplanation = r.hasExplanation ∧
      s.extra = r.extra) ∧
    sanitizeReport none = none :=
  ⟨fun _ => ⟨_, rfl, rfl, rfl, rfl, rfl, rfl, rfl⟩, rfl⟩

/-- C8: empty inputs are handled without faults: a missing or empty document
directory yields the empty index (not an error), resolution over the empty
index returns `none` for every report, every query resolves to `none` over
the empty cache, and a missing or empty records source leaves the cache
empty after loading.  All embedded operations are total functions, so no
exception path exists. -/
theorem C8_empty_inputs_resolve_to_none :
    (ensureReportDocsIndex none none = some []) ∧
    (ensureReportDocsIndex (some []) none = some []) ∧
    (∀ (dl : Option (List String)) (r : Report),
      resolveExplanationPath dl (some []) r = none) ∧
    (∀ r : Report, resolveExplanationPath none none r = none) ∧
    (∀ q : String, findBestReportMatch [] q = none) ∧
    (∀ dl, ((ensureReportsLoaded .missing dl ⟨[], none⟩).1).reportsCache = []) ∧
    (∀ dl, ((ensureReportsLoaded (.array []) dl
      ⟨[], none⟩).1).reportsCache = []) := by
  refine ⟨rfl, rfl, ?_, ?_, ?_, ?_, ?_⟩
  · intro dl r
    show docLoop [] (resolveCandidates r) none 0 = none
    exact docLoop_nil_entries _ 0
  · intro r
    show docLoop [] (resolveCandidates r) none 0 = none
    exact docLoop_nil_entries _ 0
  · intro q
    unfold findBestReportMatch
    by_cases hq : normalizeText q = ""
    · rw [if_pos hq]
    · rw [if_neg hq]
      have h : matchBest [] (normalizeText q) = none := rfl
      rw [h]
  · intro dl
    rfl
  · intro dl
    cases dl <;> rfl

/-- C2: the acceptance thresholds are inclusive at the stated boundaries.
With no exact key match, a best fuzzy candidate/document pair of similarity
exactly `3/5` (= 0.6) yields that document's path while a best similarity of
exactly `59/100` (= 0.59) yields `none`; in query matching a best score of
exactly `9/20` (= 0.45) yields the winning report with that score, the
result is `none` exactly when the best score is strictly below `9/20`, and
an empty best (score `-Infinity`) also yields `none`. -/
theorem C2_threshold_boundaries :
    (∀ (entries : List (String × String)) (cands : List String) (p : String),
      (∀ c ∈ cands, lookupTruthy entries (normalizeText c) = none) →
      docBest entries cands = (some p, 3/5) → p ≠ "" →
      findDocPathForCandidates (some entries) cands = some p) ∧
    (∀ (entries : List (String × String)) (cands : List String)
      (bp : Option String),
      (∀ c ∈ cands, lookupTruthy entries (normalizeText c) = none) →
      docBest entries cands = (bp, 59/100) →
      findDocPathForCandidates (some entries) cands = none) ∧
    (∀ (cache : List Report) (q : String) (r : Report) (s : ℚ),
      normalizeText q ≠ "" →
      matchBest cache (normalizeText q) = some (r, s) →
      ((s = 9/20 → findBestReportMatch cache q = some (r, 9/20)) ∧
       (findBestReportMatch cache q = none ↔ s < 9/20))) ∧
    (∀ (cache : List Report) (q : String),
      matchBest cache (normalizeText q) = none →
      findBestReportMatch cache q = none) := by
  refine ⟨?_, ?_, ?_, ?_⟩
  · intro entries cands p hne hbest hp
    show docLoop entries cands none 0 = some p
    rw [docLoop_no_exact entries cands none 0 hne]
    have heq : docFoldFrom entries cands (none, 0) = (some p, 3/5) := hbest
    rw [heq]
    show (if p ≠ "" ∧ (3:ℚ)/5 ≥ 3/5 then some p else none) = some p
    rw [if_pos ⟨hp, by norm_num⟩]
  · intro entries cands bp hne hbest
    show docLoop entries cands none 0 = none
    rw [docLoop_no_exact entries cands none 0 hne]
    have heq : docFoldFrom entries cands (none, 0) = (bp, 59/100) := hbest
    rw [heq]
    rcases bp with _ | p
    · rfl
    · show (if p ≠ "" ∧ (59:ℚ)/100 ≥ 3/5 then some p else none) = none
      rw [if_neg]
      intro hcon
      have h2 := hcon.2
      norm_num at h2
  · intro cache q r s hq hmb
    constructor
    · intro hs
      unfold findBestReportMatch
      rw [if_neg hq, hmb]
      show (if s < 9/20 then none else some (r, s)) = some (r, 9/20)
      rw [hs]
      rw [if_neg (by norm_num)]
    · unfold findBestReportMatch
      rw [if_neg hq, hmb]
      show (if s < 9/20 then none else some (r, s)) = none ↔ s < 9/20
      by_cases hlt : s < 9/20
      · rw [if_pos hlt]
        exact ⟨fun _ => hlt, fun _ => rfl⟩
      · rw [if_neg hlt]
        exact ⟨fun hcon => absurd hcon (by simp), fun hs => absurd hs hlt⟩
  · intro cache q hmb
    unfold findBestReportMatch
    by_cases hq : normalizeText q = ""
    · rw [if_pos hq]
    · rw [if_neg hq, hmb]

/-- A hundred `a`s: the document key of the `0.59` boundary witness. -/
def keyLong : String :=
  "aaaaaaaaaaaaaaaaaaaaaaaaaaaaaaaaaaaaaaaaaaaaaaaaaaaaaaaaaaaaaaaaaaaaaaaaaaaaaaaaaaaaaaaaaaaaaaaaaaaa"

/-- Fifty-nine `a`s: the candidate of the `0.59` boundary witness
(`1 - 41/100 = 59/100` exactly). -/
def candLong : String :=
  "aaaaaaaaaaaaaaaaaaaaaaaaaaaaaaaaaaaaaaaaaaaaaaaaaaaaaaaaaaa"

/-- Twenty `a`s as a report title: query of nine `a`s is a substring, scoring
exactly `9/20`. -/
def reportA20 : Report :=
  ⟨none, some "aaaaaaaaaaaaaaaaaaaa", none, none, none, false, []⟩

/-- Twenty `b`s as a report title: the nine-`a` query scores `0 < 9/20`. -/
def reportB20 : Report :=
  ⟨none, some "bbbbbbbbbbbbbbbbbbbb", none, none, none, false, []⟩

theorem C2_threshold_boundaries_witness :
    findDocPathForCandidates (some [("aaaaa", "data/reports/fuzzy.md")])
      ["aaa"] = some "data/reports/fuzzy.md" ∧
    findDocPathForCandidates (some [(keyLong, "data/reports/long.md")])
      [candLong] = none ∧
    findBestReportMatch [reportA20] "aaaaaaaaa" =
      some (reportA20, 9/20) ∧
    findBestReportMatch [reportB20] "aaaaaaaaa" = none ∧
    findBestReportMatch [] "anything" = none := by
  have hsimA : similarityQ "aaaaa" "aaa" = 3/5 := by
    unfold similarityQ
    rw [(by decide : levenshteinDistance "aaaaa" "aaa" = 2)]
    rw [(by decide : ("aaaaa" : String).length = 5)]
    rw [(by decide : ("aaa" : String).length = 3)]
    norm_num [max_def]
  have hbA : docBest [("aaaaa", "data/reports/fuzzy.md")] ["aaa"] =
      (some "data/reports/fuzzy.md", 3/5) := by
    show (if similarityQ "aaaaa" "aaa" > (0:ℚ)
      then (some "data/reports/fuzzy.md", similarityQ "aaaaa" "aaa")
      else (none, 0)) = (some "data/reports/fuzzy.md", 3/5)
    rw [hsimA]
    rw [if_pos (by norm_num)]
  have hsimL : similarityQ keyLong candLong = 59/100 := by
    unfold similarityQ
    rw [(by decide : levenshteinDistance keyLong candLong = 41)]
    rw [(by decide : keyLong.length = 100)]
    rw [(by decide : candLong.length = 59)]
    norm_num [max_def]
  have hbL : docBest [(keyLong, "data/reports/long.md")] [candLong] =
      (some "data/reports/long.md", 59/100) := by
    show (if similarityQ keyLong candLong > (0:ℚ)
      then (some "data/reports/long.md", similarityQ keyLong candLong)
      else (none, 0)) = (some "data/reports/long.md", 59/100)
    rw [hsimL]
    rw [if_pos (by norm_num)]
  have hmsA : matchScore "aaaaaaaaa" "aaaaaaaaaaaaaaaaaaaa" = 9/20 := by
    unfold matchScore
    rw [if_pos (by decide)]
    rw [(by decide : ("aaaaaaaaa" : String).length = 9)]
    rw [(by decide : ("aaaaaaaaaaaaaaaaaaaa" : String).length = 20)]
    norm_num [max_def]
  have hmbA : matchBest [reportA20] (normalizeText "aaaaaaaaa") =
      some (reportA20, 9/20) := by
    show some (reportA20, matchScore "aaaaaaaaa" "aaaaaaaaaaaaaaaaaaaa") =
      some (reportA20, (9:ℚ)/20)
    rw [hmsA]
  have hmsB : matchScore "aaaaaaaaa" "bbbbbbbbbbbbbbbbbbbb" = 0 := by
    unfold matchScore
    rw [if_neg (by decide)]
    unfold similarityQ
    rw [(by decide :
      levenshteinDistance "bbbbbbbbbbbbbbbbbbbb" "aaaaaaaaa" = 20)]
    rw [(by decide : ("bbbbbbbbbbbbbbbbbbbb" : String).length = 20)]
    rw [(by decide : ("aaaaaaaaa" : String).length = 9)]
    norm_num [max_def]
  have hmbB : matchBest [reportB20] (normalizeText "aaaaaaaaa") =
      some (reportB20, 0) := by
    show some (reportB20, matchScore "aaaaaaaaa" "bbbbbbbbbbbbbbbbbbbb") =
      some (reportB20, (0:ℚ))
    rw [hmsB]
  refine ⟨?_, ?_, ?_, ?_, ?_⟩
  · exact C2_threshold_boundaries.1 _ _ _ (by decide) hbA (by decide)
  · exact C2_threshold_boundaries.2.1 _ _ _ (by decide) hbL
  · exact (C2_threshold_boundaries.2.2.1 [reportA20] "aaaaaaaaa" reportA20
      (9/20) (by decide) hmbA).1 rfl
  · exact (C2_threshold_boundaries.2.2.1 [reportB20] "aaaaaaaaa" reportB20 0
      (by decide) hmbB).2.mpr (by norm_num)
  · exact C2_threshold_boundaries.2.2.2 [] "anything" rfl

/-- The report of the C3 exactness scenario: slug `"foo-bar"` normalizes to
the indexed key `"foobar"` of document `foo-bar.md`. -/
def fooBarReport : Report := ⟨some "foo-bar", none, none, none, none, false, []⟩

/-- C3: an exact key match returns immediately, preempting all fuzzy scoring:
whenever some candidate of the report normalizes to a key of the index (whose
keys and stored paths are non-empty, as the index builder guarantees),
`resolveExplanationPath` returns the path stored under the first such
candidate in candidate order; in particular, with `foo-bar.md` indexed under
`"foobar"` and a report slug `"foo-bar"`, it returns that document's path. -/
theorem C3_exact_match_preempts_fuzzy :
    (∀ (dl : Option (List String)) (entries : List (String × String))
      (r : Report) (c₀ : String) (e₀ : String × String),
      (∀ e ∈ entries, e.1 ≠ "") → (∀ e ∈ entries, e.2 ≠ "") →
      (resolveCandidates r).find?
        (fun c => entries.any (fun e => e.1 == normalizeText c)) = some c₀ →
      entries.find? (fun e => e.1 == normalizeText c₀) = some e₀ →
      resolveExplanationPath dl (some entries) r = some e₀.2) ∧
    resolveExplanationPath none (some [("foobar", "data/reports/foo-bar.md")])
      fooBarReport = some "data/reports/foo-bar.md" := by
  constructor
  · intro dl entries r c₀ e₀ hkeys hvals hfind he
    show docLoop entries (resolveCandidates r) none 0 = some e₀.2
    have hpe : ∀ c ∈ resolveCandidates r,
        (fun c => entries.any (fun e => e.1 == normalizeText c)) c =
        (fun c => (lookupTruthy entries (normalizeText c)).isSome) c :=
      fun c _ => (lookupTruthy_isSome_eq_any entries hkeys hvals
        (normalizeText c)).symm
    have hconv : (resolveCandidates r).find?
        (fun c => (lookupTruthy entries (normalizeText c)).isSome) = some c₀ := by
      rw [← find?_congr_pred _ _ _ hpe]
      exact hfind
    rw [docLoop_exact entries _ none 0 c₀ hconv]
    have hn : normalizeText c₀ ≠ "" := by
      have hpred := List.find?_some he
      have hmem := List.mem_of_find?_eq_some he
      have h1 : e₀.1 = normalizeText c₀ := by simpa using hpred
      rw [← h1]
      exact hkeys e₀ hmem
    unfold lookupTruthy
    rw [if_neg hn, he]
    show (if e₀.2 ≠ "" then some e₀.2 else none) = some e₀.2
    rw [if_pos (hvals e₀ (List.mem_of_find?_eq_some he))]
  · decide

theorem C3_exact_match_preempts_fuzzy_witness :
    resolveExplanationPath (some ["foo-bar.md"])
      (some [("foobar", "data/reports/foo-bar.md")]) fooBarReport =
      some "data/reports/foo-bar.md" :=
  C3_exact_match_preempts_fuzzy.1 (some ["foo-bar.md"])
    [("foobar", "data/reports/foo-bar.md")] fooBarReport "foo-bar"
    ("foobar", "data/reports/foo-bar.md")
    (by decide) (by decide) (by decide) (by decide)

/-- The report of the C4 query-matching scenario. -/
def reportRV : Report :=
  ⟨none, some "Reentrancy Attack in TokenVault", none, none, none, false, []⟩

/-- The best pre-threshold pair and the final result for the query
`"reentrancy"` against `reportRV`: the substring rule scores `10/28 = 5/14`,
which the `0.45` threshold then rejects. -/
theorem reportRV_match_facts :
    matchBest [reportRV] (normalizeText "reentrancy") =
      some (reportRV, 5/14) ∧
    findBestReportMatch [reportRV] "reentrancy" = none := by
  have hms : matchScore "reentrancy" "reentrancyattackintokenvault" = 5/14 := by
    unfold matchScore
    rw [if_pos (by decide)]
    rw [(by decide : ("reentrancy" : String).length = 10)]
    rw [(by decide : ("reentrancyattackintokenvault" : String).length = 28)]
    norm_num [max_def]
  have hmb : matchBest [reportRV] (normalizeText "reentrancy") =
      some (reportRV, 5/14) := by
    show some (reportRV, matchScore "reentrancy" "reentrancyattackintokenvault") =
      some (reportRV, (5:ℚ)/14)
    rw [hms]
  refine ⟨hmb, ?_⟩
  unfold findBestReportMatch
  rw [if_neg (by decide : ¬ normalizeText "reentrancy" = "")]
  rw [hmb]
  show (if (5:ℚ)/14 < 9/20 then none else some (reportRV, (5:ℚ)/14)) = none
  rw [if_pos (by norm_num)]

/-- C4 counterexample: with a cache containing only the report titled
`"Reentrancy Attack in TokenVault"`, `findBestReportMatch "reentrancy"`
returns `none` — not the non-empty match the claim asserts. -/
theorem C4_counterexample_reentrancy_is_rejected :
    findBestReportMatch [reportRV] "reentrancy" = none :=
  reportRV_match_facts.2

/-- C4 (amended): the query `"reentrancy"` against the report titled
`"Reentrancy Attack in TokenVault"` is scored by the substring-containment
rule at `len(query)/len(normalized title) = 10/28 = 5/14`, but that score is
strictly below the `9/20` acceptance threshold, so `findBestReportMatch`
returns `none` rather than a non-empty match. -/
theorem C4_amended_substring_score_below_threshold :
    matchBest [reportRV] (normalizeText "reentrancy") =
      some (reportRV, 5/14) ∧
    (5 : ℚ)/14 = (("reentrancy" : String).length : ℚ) /
      ((normalizeText "Reentrancy Attack in TokenVault").length : ℚ) ∧
    (5 : ℚ)/14 < 9/20 ∧
    findBestReportMatch [reportRV] "reentrancy" = none := by
  refine ⟨reportRV_match_facts.1, ?_, by norm_num, reportRV_match_facts.2⟩
  rw [(by decide : normalizeText "Reentrancy Attack in TokenVault" =
    "reentrancyattackintokenvault")]
  rw [(by decide : ("reentrancy" : String).length = 10)]
  rw [(by decide : ("reentrancyattackintokenvault" : String).length = 28)]
  norm_num

/-- The last element of a list is a member. -/
theorem mem_of_getLast?_eq_some {α : Type} :
    ∀ {l : List α} {a : α}, l.getLast? = some a → a ∈ l := by
  intro l
  induction l with
  | nil => intro a h; simp at h
  | cons x t ih =>
      intro a h
      cases t with
      | nil =>
          simp at h
          simp [h]
      | cons y t' =>
          rw [List.getLast?_cons_cons] at h
          exact List.mem_cons_of_mem x (ih h)

/-- A successfully parsed URL is a non-empty string. -/
theorem parseURLPathname_source_ne_empty {u pn : String}
    (h : parseURLPathname u = some pn) : u ≠ "" := by
  intro he
  subst he
  exact Option.noConfusion ((show parseURLPathname "" = none from rfl) ▸ h)

/-- A successfully parsed URL has a non-empty pathname (it starts with the
slash). -/
theorem parseURLPathname_ne_empty {u pn : String}
    (h : parseURLPathname u = some pn) : pn ≠ "" := by
  unfold parseURLPathname at h
  split at h
  · split at h
    · exact Option.noConfusion h
    · split at h
      · exact Option.noConfusion h
      · split at h
        · have hpn : pn = "/" := (Option.some_inj.mp h).symm
          rw [hpn]
          decide
        · rename_i hostPath heq hs hh hpath
          have hpn : pn = ⟨hostPath.dropWhile (fun c => c != '/')⟩ :=
            (Option.some_inj.mp h).symm
          rw [hpn]
          exact string_ne_empty_of_data_ne hpath
  · exact Option.noConfusion h

/-- A report whose URL ends in a dotfile-style name `.pdf`: stripping the
extension leaves the empty string. -/
def reportPdfDot : Report :=
  ⟨none, none, none, some "https://host/a/.pdf", none, false, []⟩

/-- C5 counterexample: for the record `{url: "https://host/a/.pdf"}` the URL
parses with final path segment `".pdf"`, whose extension-stripped variant is
the empty string; the candidate set contains `".pdf"` but not the
extension-stripped variant, because the final truthiness filter drops the
empty string — refuting the claim for this record. -/
theorem C5_counterexample_dotfile_extension :
    parseURLPathname "https://host/a/.pdf" = some "/a/.pdf" ∧
    pathBasename "/a/.pdf" = ".pdf" ∧ (".pdf" : String) ≠ "" ∧
    stripExt ".pdf" = "" ∧
    buildReportDocCandidates reportPdfDot "" =
      ["https://host/a/.pdf", ".pdf"] ∧
    ("" : String) ∉ buildReportDocCandidates reportPdfDot "" :=
  ⟨by decide, by decide, by decide, by decide, by decide, by decide⟩

/-- C5 (amended): candidate generation contributes, for a `github_repo` with
a path separator, both the verbatim string and its final non-empty segment;
for a URL that parses with a non-empty final path segment, the verbatim URL,
that segment, and — provided it is non-empty (otherwise the truthiness
filter drops it) — the segment with its trailing extension removed; and a
malformed URL contributes only the verbatim string, raising no error (the
URL stage is a total function whose failure branch adds nothing else). -/
theorem C5_amended_candidate_generation :
    (∀ (r : Report) (slug g seg : String), r.github_repo = some g →
      '/' ∈ g.data → (repoSegments g).getLast? = some seg →
      g ∈ buildReportDocCandidates r slug ∧
      seg ∈ buildReportDocCandidates r slug) ∧
    (∀ (r : Report) (slug u pn : String), r.url = some u →
      parseURLPathname u = some pn → pathBasename pn ≠ "" →
      u ∈ buildReportDocCandidates r slug ∧
      pathBasename pn ∈ buildReportDocCandidates r slug ∧
      (stripExt (pathBasename pn) ≠ "" →
        stripExt (pathBasename pn) ∈ buildReportDocCandidates r slug)) ∧
    (∀ (r : Report) (c : List String) (u : String), r.url = some u →
      u ≠ "" → parseURLPathname u = none → candUrl r c = addCand c u) := by
  refine ⟨?_, ?_, ?_⟩
  · intro r slug g seg hg hsep hseg
    have hgne : g ≠ "" := string_ne_empty_of_data_ne (by
      intro hd
      rw [hd] at hsep
      simp at hsep)
    have hsegmem : seg ∈ repoSegments g := mem_of_getLast?_eq_some hseg
    have hsegne : seg ≠ "" := by
      have hp := List.of_mem_filter hsegmem
      simpa using hp
    have hrepo : candRepo r (candTitle r (candSlug slug)) =
        addCand (addCand (candTitle r (candSlug slug)) g) seg := by
      simp only [candRepo, hg]
      rw [if_pos hgne, hseg]
    have hgmem : g ∈ candUrl r (candRepo r (candTitle r (candSlug slug))) := by
      apply mem_candUrl_of_mem
      rw [hrepo]
      exact mem_addCand_of_mem seg (mem_addCand_self _ g)
    have hsegmem2 : seg ∈ candUrl r (candRepo r (candTitle r (candSlug slug))) := by
      apply mem_candUrl_of_mem
      rw [hrepo]
      exact mem_addCand_self _ seg
    exact ⟨List.mem_filter.mpr ⟨hgmem, by simpa using hgne⟩,
      List.mem_filter.mpr ⟨hsegmem2, by simpa using hsegne⟩⟩
  · intro r slug u pn hu hp hbne
    have hune : u ≠ "" := parseURLPathname_source_ne_empty hp
    have hpne : pn ≠ "" := parseURLPathname_ne_empty hp
    have hcand : candUrl r (candRepo r (candTitle r (candSlug slug))) =
        addCand (addCand (addCand (candRepo r (candTitle r (candSlug slug))) u)
          (pathBasename pn)) (stripExt (pathBasename pn)) := by
      simp only [candUrl, hu]
      rw [if_pos hune]
      simp only [hp]
      rw [if_pos hpne, if_pos hbne]
    refine ⟨?_, ?_, ?_⟩
    · apply List.mem_filter.mpr
      refine ⟨?_, by simpa using hune⟩
      rw [hcand]
      exact mem_addCand_of_mem _ (mem_addCand_of_mem _ (mem_addCand_self _ u))
    · apply List.mem_filter.mpr
      refine ⟨?_, by simpa using hbne⟩
      rw [hcand]
      exact mem_addCand_of_mem _ (mem_addCand_self _ (pathBasename pn))
    · intro hsne
      apply List.mem_filter.mpr
      refine ⟨?_, by simpa using hsne⟩
      rw [hcand]
      exact mem_addCand_self _ (stripExt (pathBasename pn))
  · intro r c u hu hune hp
    simp only [candUrl, hu]
    rw [if_pos hune]
    simp only [hp]

/-- The `{github_repo: "org/proj"}` record of the C5 examples. -/
def reportOrgProj : Report := ⟨none, none, some "org/proj", none, none, false, []⟩

/-- The `{url: ".../Report-Name.pdf"}` record of the C5 examples. -/
def reportPdfName : Report :=
  ⟨none, none, none, some "https://host/path/Report-Name.pdf", none, false, []⟩

/-- A record with a malformed URL. -/
def reportBadUrl : Report := ⟨none, none, none, some "not a url", none, false, []⟩

theorem C5_amended_candidate_generation_witness :
    ("org/proj" ∈ buildReportDocCandidates reportOrgProj "" ∧
     "proj" ∈ buildReportDocCandidates reportOrgProj "") ∧
    ("https://host/path/Report-Name.pdf" ∈
        buildReportDocCandidates reportPdfName "" ∧
     "Report-Name.pdf" ∈ buildReportDocCandidates reportPdfName "" ∧
     "Report-Name" ∈ buildReportDocCandidates reportPdfName "") ∧
    candUrl reportBadUrl [] = addCand [] "not a url" := by
  refine ⟨?_, ?_, ?_⟩
  · exact C5_amended_candidate_generation.1 reportOrgProj "" "org/proj" "proj"
      rfl (by decide) (by decide)
  · have h := C5_amended_candidate_generation.2.1 reportPdfName ""
      "https://host/path/Report-Name.pdf" "/path/Report-Name.pdf" rfl
      (by decide) (by decide)
    exact ⟨h.1, h.2.1, h.2.2 (by decide)⟩
  · exact C5_amended_candidate_generation.2.2 reportBadUrl [] "not a url" rfl
      (by decide) (by decide)

/-- The slug derivation of `ensureReportsLoaded` (server.js 58-60), factored
out of `enrichOne` for specification purposes: slugify the first truthy field
of the priority chain (or the positional placeholder), and fall back to the
placeholder when the slugified form is empty. -/
def slugSourceOf (it : Option Report) (fallback : String) : String :=
  (firstTruthy [(it.getD emptyReport).slug, (it.getD emptyReport).title,
    (it.getD emptyReport).github_repo, (it.getD emptyReport).url]).getD fallback

def derivedSlug (i : Nat) (it : Option Report) : String :=
  if createSlug (slugSourceOf it ("report-" ++ toString (i + 1))) = ""
  then "report-" ++ toString (i + 1)
  else createSlug (slugSourceOf it ("report-" ++ toString (i + 1)))

/-- The placeholder slug is never empty. -/
theorem report_placeholder_ne_empty (i : Nat) :
    ("report-" ++ toString (i + 1)) ≠ "" :=
  append_ne_empty_left "report-" (toString (i + 1)) (by decide)

theorem derivedSlug_ne_empty (i : Nat) (it : Option Report) :
    derivedSlug i it ≠ "" := by
  unfold derivedSlug
  split
  · exact report_placeholder_ne_empty i
  · assumption

/-- A report titled `"Alpha"`, used twice to exhibit duplicate slugs. -/
def alphaReport : Report := ⟨none, some "Alpha", none, none, none, false, []⟩

/-- C6: every record enriched by `ensureReportsLoaded` carries a non-empty
slug, derived by slugifying the first present non-blank field of the
priority chain `slug, title, github_repo, url` and falling back to the
positional placeholder `report-<1-based index>` when the chain is empty or
slugifies to the empty string; duplicate slugs across records are permitted
and not deduplicated (two identical titles keep the same slug). -/
theorem C6_enriched_slug_nonempty :
    (∀ (dl : Option (List String)) (idxSt : Option (List (String × String)))
      (items : List (Option Report)) (i : Nat) (it : Option Report),
      items[i]? = some it →
      ((enrichReports dl idxSt items)[i]?).map Report.slug =
        some (some (derivedSlug i it)) ∧
      derivedSlug i it ≠ "") ∧
    (enrichReports (some []) (some []) [some alphaReport, some alphaReport]).map
      Report.slug = [some "alpha", some "alpha"] := by
  constructor
  · intro dl idxSt items i it hit
    have hget : (enrichReports dl idxSt items)[i]? =
        some (enrichOne dl idxSt i it) := by
      unfold enrichReports
      rw [enrichFrom_getElem? dl idxSt items 0 i, hit]
      simp
    constructor
    · rw [hget]
      have hslug : (enrichOne dl idxSt i it).slug = some (derivedSlug i it) := rfl
      rw [Option.map_some', hslug]
    · exact derivedSlug_ne_empty i it
  · decide

theorem C6_enriched_slug_nonempty_witness :
    ((enrichReports (some []) (some []) [some alphaReport])[0]?).map
      Report.slug = some (some (derivedSlug 0 (some alphaReport))) ∧
    derivedSlug 0 (some alphaReport) ≠ "" :=
  C6_enriched_slug_nonempty.1 (some []) (some []) [some alphaReport] 0
    (some alphaReport) rfl

/-- C7 counterexample: starting from an empty cache with a records source
that yields an empty array, the first `ensureReportsLoaded` call leaves the
cache empty, so the second call reads the records source again (read flag
`true`) — refuting "the second call does not read the records source again"
for every state and source. -/
theorem C7_counterexample_second_read_on_empty_source :
    (ensureReportsLoaded (.array []) (some [])
      ((ensureReportsLoaded (.array []) (some []) ⟨[], none⟩).1)).2 = true := by
  decide

/-- C7 (amended): `ensureReportsLoaded` is idempotent on the cache and state
contents — a second call reproduces exactly the state of the first — and the
second call skips the records-source read precisely when the first call left
a non-empty cache; when the cache is still empty after the first call
(empty, missing, or malformed source) the second call does read the source
again. -/
theorem C7_amended_idempotent_contents :
    ∀ (src : RecordsSource) (dl : Option (List String)) (st : ServerState),
    (ensureReportsLoaded src dl (ensureReportsLoaded src dl st).1).1 =
      (ensureReportsLoaded src dl st).1 ∧
    ((ensureReportsLoaded src dl st).1.reportsCache ≠ [] →
      (ensureReportsLoaded src dl (ensureReportsLoaded src dl st).1).2 = false) ∧
    ((ensureReportsLoaded src dl st).1.reportsCache = [] →
      (ensureReportsLoaded src dl (ensureReportsLoaded src dl st).1).2 = true) := by
  intro src dl st
  by_cases h0 : st.reportsCache.length > 0
  · have hne : st.reportsCache ≠ [] := by
      intro hc
      rw [hc] at h0
      simp at h0
    have he1 : ensureReportsLoaded src dl st = (st, false) := by
      unfold ensureReportsLoaded
      rw [if_pos h0]
    refine ⟨?_, ?_, ?_⟩
    · simp only [he1]
    · intro _
      simp only [he1]
    · intro hc
      simp only [he1] at hc
      exact absurd hc hne
  · rcases src with _ | _ | items
    · have he1 : ensureReportsLoaded .missing dl st =
          (⟨[], st.reportDocsIndex⟩, true) := by
        unfold ensureReportsLoaded
        rw [if_neg h0]
      have he2 : ensureReportsLoaded .missing dl
          (⟨[], st.reportDocsIndex⟩ : ServerState) =
          (⟨[], st.reportDocsIndex⟩, true) := by
        unfold ensureReportsLoaded
        rw [if_neg (by simp)]
      refine ⟨?_, ?_, ?_⟩
      · simp only [he1, he2]
      · intro hne
        simp only [he1] at hne
        exact absurd rfl hne
      · intro _
        simp only [he1, he2]
    · have he1 : ensureReportsLoaded .notArray dl st =
          (⟨[], ensureReportDocsIndex dl st.reportDocsIndex⟩, true) := by
        unfold ensureReportsLoaded
        rw [if_neg h0]
      have he2 : ensureReportsLoaded .notArray dl
          (⟨[], ensureReportDocsIndex dl st.reportDocsIndex⟩ : ServerState) =
          (⟨[], ensureReportDocsIndex dl st.reportDocsIndex⟩, true) := by
        unfold ensureReportsLoaded
        rw [if_neg (by simp)]
        show ((⟨[], ensureReportDocsIndex dl (ensureReportDocsIndex dl
            st.reportDocsIndex)⟩ : ServerState), true) =
          ((⟨[], ensureReportDocsIndex dl st.reportDocsIndex⟩ : ServerState), true)
        rw [ensureReportDocsIndex_idem]
      refine ⟨?_, ?_, ?_⟩
      · simp only [he1, he2]
      · intro hne
        simp only [he1] at hne
        exact absurd rfl hne
      · intro _
        simp only [he1, he2]
    · rcases items with _ | ⟨it, rest⟩
      · have he1 : ensureReportsLoaded (.array []) dl st =
            (⟨[], ensureReportDocsIndex dl st.reportDocsIndex⟩, true) := by
          unfold ensureReportsLoaded
          rw [if_neg h0]
          rfl
        have he2 : ensureReportsLoaded (.array []) dl
            (⟨[], ensureReportDocsIndex dl st.reportDocsIndex⟩ : ServerState) =
            (⟨[], ensureReportDocsIndex dl st.reportDocsIndex⟩, true) := by
          unfold ensureReportsLoaded
          rw [if_neg (by simp)]
          show ((⟨[], ensureReportDocsIndex dl (ensureReportDocsIndex dl
              st.reportDocsIndex)⟩ : ServerState), true) =
            ((⟨[], ensureReportDocsIndex dl st.reportDocsIndex⟩ : ServerState), true)
          rw [ensureReportDocsIndex_idem]
        refine ⟨?_, ?_, ?_⟩
        · simp only [he1, he2]
        · intro hne
          simp only [he1] at hne
          exact absurd rfl hne
        · intro _
          simp only [he1, he2]
      · have he1 : ensureReportsLoaded (.array (it :: rest)) dl st =
            (⟨enrichReports dl (ensureReportDocsIndex dl st.reportDocsIndex)
                (it :: rest),
              ensureReportDocsIndex dl st.reportDocsIndex⟩, true) := by
          unfold ensureReportsLoaded
          rw [if_neg h0]
        have hlen : (enrichReports dl (ensureReportDocsIndex dl
            st.reportDocsIndex) (it :: rest)).length > 0 := by
          show (enrichFrom dl (ensureReportDocsIndex dl st.reportDocsIndex)
            0 (it :: rest)).length > 0
          rw [enrichFrom]
          simp
        have he2 : ensureReportsLoaded (.array (it :: rest)) dl
            (⟨enrichReports dl (ensureReportDocsIndex dl st.reportDocsIndex)
                (it :: rest),
              ensureReportDocsIndex dl st.reportDocsIndex⟩ : ServerState) =
            (⟨enrichReports dl (ensureReportDocsIndex dl st.reportDocsIndex)
                (it :: rest),
              ensureReportDocsIndex dl st.reportDocsIndex⟩, false) := by
          unfold ensureReportsLoaded
          rw [if_pos hlen]
        refine ⟨?_, ?_, ?_⟩
        · simp only [he1, he2]
        · intro _
          simp only [he1, he2]
        · intro hc
          simp only [he1] at hc
          have : (enrichReports dl (ensureReportDocsIndex dl
              st.reportDocsIndex) (it :: rest)).length > 0 := hlen
          rw [hc] at this
          simp at this

theorem C7_amended_idempotent_contents_witness :
    (ensureReportsLoaded (.array [some alphaReport]) (some [])
      ((ensureReportsLoaded (.array [some alphaReport]) (some [])
        ⟨[], none⟩).1)).1 =
      (ensureReportsLoaded (.array [some alphaReport]) (some [])
        ⟨[], none⟩).1 ∧
    (ensureReportsLoaded (.array [some alphaReport]) (some [])
      ((ensureReportsLoaded (.array [some alphaReport]) (some [])
        ⟨[], none⟩).1)).2 = false := by
  have h := C7_amended_idempotent_contents (.array [some alphaReport])
    (some []) ⟨[], none⟩
  exact ⟨h.1, h.2.1 (by decide)⟩

/-- A report titled `"ab"`, strictly contained in the normalized query
`"abc"`. -/
def reportAB : Report := ⟨none, some "ab", none, none, none, false, []⟩

/-- C10: the score returned by `findBestReportMatch` is not bounded by 1:
whenever the normalized query strictly contains a non-empty comparison
string, the substring rule scores `len(query)/len(candidate) > 1`, and for
the concrete cache `[{title: "ab"}]` and query `"abc"` the returned score is
`3/2 > 1`; the similarity measure, in contrast, always lies in `[0, 1]`. -/
theorem C10_score_exceeds_one :
    (∀ a b : String, 0 ≤ similarityQ a b ∧ similarityQ a b ≤ 1) ∧
    (∀ nq cand : String, cand ≠ "" → cand.data <:+: nq.data →
      cand.length < nq.length →
      matchScore nq cand = (nq.length : ℚ) / (cand.length : ℚ) ∧
      1 < matchScore nq cand) ∧
    findBestReportMatch [reportAB] "abc" = some (reportAB, 3/2) ∧
    (1 : ℚ) < 3/2 := by
  refine ⟨?_, ?_, ?_, by norm_num⟩
  · intro a b
    have hD1 : (1:ℚ) ≤ max (a.length : ℚ) (max (b.length : ℚ) 1) :=
      le_trans (le_max_right _ _) (le_max_right _ _)
    have hD0 : (0:ℚ) < max (a.length : ℚ) (max (b.length : ℚ) 1) :=
      lt_of_lt_of_le one_pos hD1
    have hd : (levenshteinDistance a b : ℚ) ≤
        max (a.length : ℚ) (max (b.length : ℚ) 1) := by
      have h1 := levenshteinDistance_le_max a b
      have h2 : ((levenshteinDistance a b : ℚ)) ≤
          ((max a.length b.length : Nat) : ℚ) := by exact_mod_cast h1
      refine le_trans h2 ?_
      rw [Nat.cast_max]
      exact max_le_max le_rfl (le_max_left _ _)
    constructor
    · unfold similarityQ
      have hdiv : (levenshteinDistance a b : ℚ) /
          max (a.length : ℚ) (max (b.length : ℚ) 1) ≤ 1 :=
        (div_le_one hD0).mpr hd
      linarith
    · unfold similarityQ
      have hdiv : 0 ≤ (levenshteinDistance a b : ℚ) /
          max (a.length : ℚ) (max (b.length : ℚ) 1) :=
        div_nonneg (by positivity) (le_of_lt hD0)
      linarith
  · intro nq cand hcne hinf hlen
    have hcond : (containsSubstr cand nq || containsSubstr nq cand) = true := by
      unfold containsSubstr
      simp [hinf]
    have hclen : 1 ≤ cand.length := List.length_pos.mpr (data_ne_of_string_ne hcne)
    have hclenQ : (1:ℚ) ≤ (cand.length : ℚ) := by exact_mod_cast hclen
    have hmax : max ((cand.length : ℚ)) 1 = (cand.length : ℚ) :=
      max_eq_left hclenQ
    constructor
    · unfold matchScore
      rw [if_pos hcond, hmax]
    · unfold matchScore
      rw [if_pos hcond, hmax]
      have hpos : (0:ℚ) < (cand.length : ℚ) := lt_of_lt_of_le one_pos hclenQ
      rw [lt_div_iff₀ hpos, one_mul]
      exact_mod_cast hlen
  · have hms : matchScore "abc" "ab" = 3/2 := by
      unfold matchScore
      rw [if_pos (by decide)]
      rw [(by decide : ("abc" : String).length = 3)]
      rw [(by decide : ("ab" : String).length = 2)]
      norm_num [max_def]
    have hmb : matchBest [reportAB] (normalizeText "abc") =
        some (reportAB, 3/2) := by
      show some (reportAB, matchScore "abc" "ab") = some (reportAB, (3:ℚ)/2)
      rw [hms]
    unfold findBestReportMatch
    rw [if_neg (by decide : ¬ normalizeText "abc" = "")]
    rw [hmb]
    show (if (3:ℚ)/2 < 9/20 then none else some (reportAB, (3:ℚ)/2)) =
      some (reportAB, 3/2)
    rw [if_neg (by norm_num)]

theorem C10_score_exceeds_one_witness :
    matchScore "abc" "ab" =
      ((("abc" : String).length : ℚ)) / ((("ab" : String).length : ℚ)) ∧
    1 < matchScore "abc" "ab" ∧
    0 ≤ similarityQ "x" "y" ∧ similarityQ "x" "y" ≤ 1 := by
  have h2 := C10_score_exceeds_one.2.1 "abc" "ab" (by decide) (by decide)
    (by decide)
  have h1 := C10_score_exceeds_one.1 "x" "y"
  exact ⟨h2.1, h2.2, h1.1, h1.2⟩
